import Mathlib

/-!
Verification of the opticalyx PSF-analysis core.

The analysis pipeline of `src/services/geminiService.ts` (centroid, radial
profile, saturation check, log stretch, statistics) and the interaction /
projection logic of `src/components/PSF3DViewer.tsx` are shallowly embedded
here.  JavaScript numbers are modelled exactly: pixel arithmetic (sums,
means, comparisons, divisions guarded by a nonzero test) over `ℚ`, and the
transcendental parts (`Math.sqrt`, `Math.log`, `Math.exp`, trigonometry)
over `ℝ`.  The one place the source can divide by zero (the radial-profile
normalisation) is modelled with an explicit IEEE-style result type `JsNum`
so that NaN/Infinity outcomes are visible.
-/

/-- The `ImageData` input buffer: `width`, `height`, and the backing channel
array, modelled as a total function from flat indices to sample values.  A
real buffer holds `4·width·height` unsigned-byte samples; hypotheses on
claims restrict the function accordingly where needed. -/
structure ImageData where
  width : ℕ
  height : ℕ
  data : ℕ → ℚ

/-- Mean of the three colour channels of pixel number `p`
(`(data[4p] + data[4p+1] + data[4p+2]) / 3`, the code's grayscale
luminosity). -/
def pixelMean (img : ImageData) (p : ℕ) : ℚ :=
  (img.data (p * 4) + img.data (p * 4 + 1) + img.data (p * 4 + 2)) / 3

/-- Luminosity of the pixel at column `x`, row `y`: the code's
`idx = (y * width + x) * 4` followed by the channel mean. -/
def meanIntensity (img : ImageData) (x y : ℕ) : ℚ :=
  pixelMean img (y * img.width + x)

/-- The scan order of the nested `for (y) for (x)` loops: row-major pairs
`(y, x)`. -/
def scanOrder (h w : ℕ) : List (ℕ × ℕ) :=
  (List.range h).flatMap (fun y => (List.range w).map (fun x => (y, x)))

/-- Accumulator of the single centroid pass: the mutable locals
`totalMass`, `sumX`, `sumY`, `maxVal` of `calculateCentroid`. -/
structure CentroidState where
  totalMass : ℚ
  sumX : ℚ
  sumY : ℚ
  maxVal : ℚ

/-- One iteration of the centroid loop body: update the running peak, then
accumulate the pixel into the centre-of-mass sums iff its luminosity
exceeds 20% of the peak observed so far (including this pixel). -/
def centroidStep (img : ImageData) (s : CentroidState) (p : ℕ × ℕ) : CentroidState :=
  let intensity := meanIntensity img p.2 p.1
  let m := if intensity > s.maxVal then intensity else s.maxVal
  if intensity > m * 0.2 then
    { totalMass := s.totalMass + intensity
      sumX := s.sumX + p.2 * intensity
      sumY := s.sumY + p.1 * intensity
      maxVal := m }
  else
    { s with maxVal := m }

/-- The full centroid pass over the buffer in scan order. -/
def centroidPass (img : ImageData) : CentroidState :=
  (scanOrder img.height img.width).foldl (centroidStep img) ⟨0, 0, 0, 0⟩

/-- Return value of `calculateCentroid`. -/
structure Centroid where
  x : ℚ
  y : ℚ
  maxVal : ℚ

/-- `calculateCentroid`: centre of mass of the image intensity, with the
geometric centre `(width/2, height/2)` and `maxVal = 0` as the degenerate
zero-mass fallback. -/
def calculateCentroid (img : ImageData) : Centroid :=
  let s := centroidPass img
  if s.totalMass = 0 then ⟨(img.width : ℚ) / 2, (img.height : ℚ) / 2, 0⟩
  else ⟨s.sumX / s.totalMass, s.sumY / s.totalMass, s.maxVal⟩

/-! ### Radial profile (`calculateRadialProfile`) -/

/-- Result type of a JavaScript floating-point division: a finite number,
a signed infinity, or NaN.  Only the radial-profile normalisation can
divide by zero in the source, so only that division uses this type. -/
inductive JsNum where
  | num (q : ℚ)
  | posInf
  | negInf
  | nan
  deriving DecidableEq

/-- JavaScript division `a / b` with IEEE zero-divisor behaviour:
`x/0 = +Infinity` for `x > 0`, `-Infinity` for `x < 0`, and `0/0 = NaN`. -/
def jsDiv (a b : ℚ) : JsNum :=
  if b = 0 then
    if 0 < a then JsNum.posInf else if a < 0 then JsNum.negInf else JsNum.nan
  else JsNum.num (a / b)

/-- `v ≥ 0` as JavaScript evaluates it: true for nonnegative finite values
and `+Infinity`, false for negative values, `-Infinity` and NaN. -/
def JsNum.Nonneg : JsNum → Prop
  | JsNum.num q => 0 ≤ q
  | JsNum.posInf => True
  | JsNum.negInf => False
  | JsNum.nan => False

/-- The two accumulator arrays `bins` (intensity sums) and `counts`
(pixel counts) of the radial binning pass, as total functions. -/
structure RadialState where
  bins : ℕ → ℚ
  counts : ℕ → ℕ

/-- One iteration of the radial binning loop: Euclidean distance from the
centre, and if it is below `maxRadius`, accumulate the pixel's luminosity
into the bin `Math.floor(distance)`. -/
noncomputable def radialStep (img : ImageData) (centerX centerY : ℚ) (maxRadius : ℕ)
    (s : RadialState) (p : ℕ × ℕ) : RadialState :=
  let dx : ℚ := p.2 - centerX
  let dy : ℚ := p.1 - centerY
  let distance : ℝ := Real.sqrt ((dx * dx + dy * dy : ℚ) : ℝ)
  if distance < (maxRadius : ℝ) then
    let binIndex : ℕ := ⌊distance⌋₊
    let intensity := meanIntensity img p.2 p.1
    { bins := fun j => if j = binIndex then s.bins j + intensity else s.bins j
      counts := fun j => if j = binIndex then s.counts j + 1 else s.counts j }
  else s

/-- The full radial binning pass in scan order, starting from zeroed
arrays. -/
noncomputable def radialPass (img : ImageData) (centerX centerY : ℚ) (maxRadius : ℕ) :
    RadialState :=
  (scanOrder img.height img.width).foldl (radialStep img centerX centerY maxRadius)
    ⟨fun _ => 0, fun _ => 0⟩

/-- Computable mirror of `radialStep`: over exact rationals,
`Math.sqrt(dx*dx+dy*dy) < maxRadius` is `dx²+dy² < maxRadius²` and
`Math.floor(Math.sqrt(d2))` is `Nat.sqrt ⌊d2⌋₊`; the equivalence is proved
in `radialStep_eq_compute` below and lets witnesses evaluate the pass. -/
def radialStepCompute (img : ImageData) (centerX centerY : ℚ) (maxRadius : ℕ)
    (s : RadialState) (p : ℕ × ℕ) : RadialState :=
  let dx : ℚ := p.2 - centerX
  let dy : ℚ := p.1 - centerY
  let d2 : ℚ := dx * dx + dy * dy
  if d2 < (maxRadius : ℚ) ^ 2 then
    let binIndex : ℕ := Nat.sqrt ⌊d2⌋₊
    let intensity := meanIntensity img p.2 p.1
    { bins := fun j => if j = binIndex then s.bins j + intensity else s.bins j
      counts := fun j => if j = binIndex then s.counts j + 1 else s.counts j }
  else s

/-- Computable mirror of `radialPass`. -/
def radialPassCompute (img : ImageData) (centerX centerY : ℚ) (maxRadius : ℕ) :
    RadialState :=
  (scanOrder img.height img.width).foldl (radialStepCompute img centerX centerY maxRadius)
    ⟨fun _ => 0, fun _ => 0⟩

/-- Mean intensity of bin `i` (`counts[i] > 0 ? bins[i] / counts[i] : 0`). -/
def radialAvg (s : RadialState) (i : ℕ) : ℚ :=
  if 0 < s.counts i then s.bins i / (s.counts i : ℚ) else 0

/-- The normalisation reference: mean of the centre bin, or `255` when the
centre bin is empty. -/
def radialPeak (s : RadialState) : ℚ :=
  if 0 < s.counts 0 then s.bins 0 / (s.counts 0 : ℚ) else 255

/-- One entry of the radial profile. -/
structure RadialDataPoint where
  radius : ℕ
  intensity : JsNum
  idealDiffraction : ℝ

/-- `calculateRadialProfile`: bin the buffer radially around the given
centre, then emit one normalised entry per integer radius `0..maxRadius-1`.
The normalising division is the one JavaScript division in the pipeline
that can have a zero divisor, hence the `jsDiv` result. -/
noncomputable def calculateRadialProfile (img : ImageData) (centerX centerY : ℚ)
    (maxRadius : ℕ) : List RadialDataPoint :=
  let s := radialPass img centerX centerY maxRadius
  (List.range maxRadius).map fun i =>
    { radius := i
      intensity := jsDiv (radialAvg s i) (radialPeak s)
      idealDiffraction := Real.exp (-(0.1) * i * i) }

/-! ### Saturation check (`checkSaturation`) -/

/-- The iteration sequence of `for (let v = a; v <= b; v++)`. -/
def intRange (a b : ℤ) : List ℤ :=
  (List.range (b + 1 - a).toNat).map (fun n : ℕ => a + (n : ℤ))

/-- The bounds guard `x >= 0 && x < width && y >= 0 && y < height`. -/
def inBounds (img : ImageData) (x y : ℤ) : Prop :=
  0 ≤ x ∧ x < (img.width : ℤ) ∧ 0 ≤ y ∧ y < (img.height : ℤ)

instance (img : ImageData) (x y : ℤ) : Decidable (inBounds img x y) := by
  unfold inBounds; infer_instance

/-- Any colour channel of the pixel at `(x, y)` is at or above the clipping
threshold 250. -/
def saturatedAt (img : ImageData) (x y : ℤ) : Prop :=
  250 ≤ img.data ((y.toNat * img.width + x.toNat) * 4) ∨
    250 ≤ img.data ((y.toNat * img.width + x.toNat) * 4 + 1) ∨
    250 ≤ img.data ((y.toNat * img.width + x.toNat) * 4 + 2)

instance (img : ImageData) (x y : ℤ) : Decidable (saturatedAt img x y) := by
  unfold saturatedAt; infer_instance

/-- The counting loops of `checkSaturation`: scan the square from
`floor(center - radius)` to `ceil(center + radius)` in both axes and count
the in-bounds pixels with a clipped channel. -/
def saturationPass (img : ImageData) (centerX centerY radius : ℚ) : ℕ :=
  (intRange ⌊centerY - radius⌋ ⌈centerY + radius⌉).foldl
    (fun acc y =>
      (intRange ⌊centerX - radius⌋ ⌈centerX + radius⌉).foldl
        (fun acc2 x =>
          if inBounds img x y then
            if saturatedAt img x y then acc2 + 1 else acc2
          else acc2)
        acc)
    0

/-- `checkSaturation`: more than 4 saturated pixels in the scanned centre
region means the core is clipped. -/
def checkSaturation (img : ImageData) (centerX centerY radius : ℚ) : Bool :=
  decide (4 < saturationPass img centerX centerY radius)

/-- The claim's reading of the scanned centre region: the set of grid
points of the square `[⌊cx-r⌋, ⌈cx+r⌉] × [⌊cy-r⌋, ⌈cy+r⌉]` that lie inside
the buffer and have some channel at or above 250, counted as a finite set.
`saturationPass_eq_regionCount` identifies it with the loop count. -/
def saturatedRegionCount (img : ImageData) (centerX centerY radius : ℚ) : ℕ :=
  (((Finset.Icc ⌊centerY - radius⌋ ⌈centerY + radius⌉) ×ˢ
      (Finset.Icc ⌊centerX - radius⌋ ⌈centerX + radius⌉)).filter
    (fun p => inBounds img p.2 p.1 ∧ saturatedAt img p.2 p.1)).card

/-! ### Log stretch (the tone-map loop of `cropImage`) -/

/-- The per-channel log-stretch curve `out = (255/log(256)) * log(1+in)`
of `cropImage` (the code computes the constant as `255 / Math.log(1+255)`). -/
noncomputable def logStretch (v : ℝ) : ℝ :=
  255 / Real.log (1 + 255) * Real.log (1 + v)

/-- The stretch loop applied to a channel array: every R, G, B sample is
remapped through `logStretch`; every alpha sample (index `4k+3`) is left
untouched. -/
noncomputable def applyLogStretch (d : ℕ → ℝ) : ℕ → ℝ :=
  fun i => if i % 4 = 3 then d i else logStretch (d i)

/-! ### Statistics (`estimateStats`) -/

/-- Accumulators of the statistics pass: `halfMaxCount`, `backgroundSum`,
`backgroundCount`. -/
structure StatAccum where
  halfMaxCount : ℕ
  backgroundSum : ℚ
  backgroundCount : ℕ

/-- One iteration of the statistics loop over pixel `p`: count luminosities
above `halfMax`, and accumulate those below `maxVal * 0.1` into the
background mean. -/
def statStep (img : ImageData) (halfMax maxVal : ℚ) (s : StatAccum) (p : ℕ) : StatAccum :=
  let val := pixelMean img p
  let s1 :=
    if val > halfMax then { s with halfMaxCount := s.halfMaxCount + 1 } else s
  if val < maxVal * 0.1 then
    { s1 with
      backgroundSum := s1.backgroundSum + val
      backgroundCount := s1.backgroundCount + 1 }
  else s1

/-- The statistics pass over all `width * height` pixels (the source steps
through the flat channel array four bytes at a time). -/
def statPass (img : ImageData) (halfMax maxVal : ℚ) : StatAccum :=
  (List.range (img.width * img.height)).foldl (statStep img halfMax maxVal) ⟨0, 0, 0⟩

/-- The background estimate: mean luminosity of the accumulated background
pixels, or `0` when none were found. -/
def estBackground (img : ImageData) : ℚ :=
  let c := calculateCentroid img
  let st := statPass img (c.maxVal / 2) c.maxVal
  if 0 < st.backgroundCount then st.backgroundSum / (st.backgroundCount : ℚ) else 0

/-- The shot-noise denominator `Math.sqrt(bg + 1)`. -/
noncomputable def estNoise (img : ImageData) : ℝ :=
  Real.sqrt ((estBackground img : ℝ) + 1)

/-- `parseFloat(x.toFixed(digits))`: round to the given number of decimal
places. -/
noncomputable def toFixed (digits : ℕ) (x : ℝ) : ℝ :=
  ((round (x * 10 ^ digits) : ℤ) : ℝ) / 10 ^ digits

/-- Return record of `estimateStats`. -/
structure ProcessingStats where
  centroidX : ℚ
  centroidY : ℚ
  fwhmPixels : ℝ
  snr : ℝ
  peakIntensity : ℤ
  backgroundLevel : ℤ

/-- `estimateStats`: recompute the centroid, count half-max pixels for the
disk-area FWHM estimate, estimate the background, and form the SNR. -/
noncomputable def estimateStats (img : ImageData) : ProcessingStats :=
  let c := calculateCentroid img
  let st := statPass img (c.maxVal / 2) c.maxVal
  let fwhm : ℝ := 2 * Real.sqrt ((st.halfMaxCount : ℝ) / Real.pi)
  let bg := estBackground img
  let signal : ℚ := c.maxVal - bg
  { centroidX := c.x
    centroidY := c.y
    fwhmPixels := toFixed 2 fwhm
    snr := toFixed 1 ((signal : ℝ) / estNoise img)
    peakIntensity := ⌊c.maxVal⌋
    backgroundLevel := ⌊bg⌋ }

/-- The claim's reading of the half-max count: the number of pixels whose
channel-mean luminosity strictly exceeds half of the centroid's `maxVal`. -/
def halfMaxRegionCount (img : ImageData) : ℕ :=
  ((Finset.range (img.width * img.height)).filter
    (fun p => (calculateCentroid img).maxVal / 2 < pixelMean img p)).card

/-! ### 3D viewer (`PSF3DViewer`) -/

/-- The renderer's `project`: rotate by azimuth (`angleZ`) then elevation
(`angleX`), scale the height axis by 15, apply the perspective divide
`400/(500 - y2)`, then the `8 * zoom` scale and the canvas translation. -/
noncomputable def project (angleX angleZ zoom width height : ℝ) (x y z : ℝ) : ℝ × ℝ :=
  let cosX := Real.cos angleX
  let sinX := Real.sin angleX
  let cosZ := Real.cos angleZ
  let sinZ := Real.sin angleZ
  let x1 := x * cosZ - y * sinZ
  let y1 := x * sinZ + y * cosZ
  let y2 := y1 * cosX - z * 15 * sinX
  let z2 := y1 * sinX + z * 15 * cosX
  let perspective := 400 / (500 - y2)
  (x1 * perspective * 8 * zoom + width / 2,
    -z2 * perspective * 8 * zoom + height / 1.5)

/-- The interaction state owned by the viewer: `angleRef.x` (elevation),
`angleRef.z` (azimuth) and `scaleRef` (zoom). -/
structure ViewerState where
  angleX : ℝ
  angleZ : ℝ
  scale : ℝ

/-- User inputs that mutate the viewer state: a wheel step (with its
`deltaY`) and a drag movement (with its pointer deltas). -/
inductive ViewerEvent where
  | wheel (deltaY : ℝ)
  | dragMove (dx dy : ℝ)

/-- `handleWheel` / `handleMouseMove` (while dragging): wheel changes zoom
by `-sign(deltaY) * 0.1` clamped to `[0.5, 3.0]`; a drag adds the pointer
deltas scaled by `0.01` to azimuth and elevation, the latter clamped to
`[0.2, π/2.2]`. -/
noncomputable def handleEvent (s : ViewerState) : ViewerEvent → ViewerState
  | ViewerEvent.wheel deltaY =>
      let delta := -Real.sign deltaY * 0.1
      let newScale := min (max 0.5 (s.scale + delta)) 3.0
      { s with scale := newScale }
  | ViewerEvent.dragMove dx dy =>
      let z := s.angleZ + dx * 0.01
      let x := s.angleX + dy * 0.01
      { angleX := max 0.2 (min (Real.pi / 2.2) x), angleZ := z, scale := s.scale }

/-- A finite interaction session: fold the events over the state. -/
noncomputable def runEvents (s : ViewerState) (evs : List ViewerEvent) : ViewerState :=
  evs.foldl handleEvent s

/-! ### Validity predicates and concrete buffers for witnesses -/

/-- A buffer holds unsigned sample values (`Uint8ClampedArray` entries are
nonnegative). -/
def ValidData (img : ImageData) : Prop :=
  ∀ i, 0 ≤ img.data i

/-- Invariant of the centroid accumulator: nonnegative mass and peak, and
coordinate sums bounded by `(extent - 1) * mass`. -/
def CentroidInv (img : ImageData) (s : CentroidState) : Prop :=
  0 ≤ s.totalMass ∧ 0 ≤ s.sumX ∧ s.sumX ≤ ((img.width : ℚ) - 1) * s.totalMass ∧
    0 ≤ s.sumY ∧ s.sumY ≤ ((img.height : ℚ) - 1) * s.totalMass ∧ 0 ≤ s.maxVal

/-- A 1×1 all-zero buffer. -/
def imgZero1 : ImageData :=
  ⟨1, 1, fun _ => 0⟩

/-- A 1×1 buffer whose single pixel has every channel at 30. -/
def imgBright1 : ImageData :=
  ⟨1, 1, fun i => if i < 3 then 30 else 0⟩

/-- A 2×2 buffer whose pixel `(1, 0)` has channel mean 30 and whose other
pixels are zero. -/
def imgPeak2 : ImageData :=
  ⟨2, 2, fun i => if 4 ≤ i ∧ i < 7 then 30 else 0⟩

/-- A 3×3 buffer with exactly 4 saturated pixels (R = 255 on pixels
0, 1, 2, 3). -/
def imgSat4 : ImageData :=
  ⟨3, 3, fun i => if i < 16 ∧ i % 4 = 0 then 255 else 0⟩

/-- A 3×3 buffer with exactly 5 saturated pixels (R = 255 on pixels
0, 1, 2, 3, 4). -/
def imgSat5 : ImageData :=
  ⟨3, 3, fun i => if i < 20 ∧ i % 4 = 0 then 255 else 0⟩

/-! ### Basic facts about the scan order -/

theorem mem_scanOrder {h w : ℕ} {p : ℕ × ℕ} :
    p ∈ scanOrder h w ↔ p.1 < h ∧ p.2 < w := by
  cases p with
  | mk y x =>
    simp only [scanOrder, List.mem_flatMap, List.mem_map, List.mem_range]
    constructor
    · rintro ⟨y0, hy0, x0, hx0, heq⟩
      cases heq
      exact ⟨hy0, hx0⟩
    · rintro ⟨hy, hx⟩
      exact ⟨y, hy, x, hx, rfl⟩

theorem scanOrder_nodup (h w : ℕ) : (scanOrder h w).Nodup := by
  refine List.nodup_flatMap.2 ⟨?_, ?_⟩
  · intro y _
    exact (List.nodup_range w).map (fun a b hab => (Prod.mk.injEq _ _ _ _ ▸ hab).2)
  · refine (List.pairwise_lt_range h).imp ?_
    intro a b hab
    intro q hqa hqb
    simp only [List.mem_map, List.mem_range] at hqa hqb
    obtain ⟨x1, -, rfl⟩ := hqa
    obtain ⟨x2, -, h2⟩ := hqb
    exact absurd (congrArg Prod.fst h2) (ne_of_gt hab)

/-! ### The centroid pass on zero pixels -/

/-- Pixels of zero luminosity never update the peak (which stays
nonnegative) and never pass the 20%-of-peak threshold, so they leave the
accumulator untouched. -/
theorem centroidFold_zeros (img : ImageData) :
    ∀ (l : List (ℕ × ℕ)) (s : CentroidState),
      (∀ p ∈ l, meanIntensity img p.2 p.1 = 0) → 0 ≤ s.maxVal →
      l.foldl (centroidStep img) s = s := by
  intro l
  induction l with
  | nil => intro s _ _; rfl
  | cons p t ih =>
    intro s hz hm
    have hp0 : meanIntensity img p.2 p.1 = 0 := hz p (List.mem_cons_self ..)
    have hstep : centroidStep img s p = s := by
      have h1 : ¬(meanIntensity img p.2 p.1 > s.maxVal) := by
        rw [hp0]; exact not_lt.mpr hm
      have h2 : ¬(meanIntensity img p.2 p.1 > s.maxVal * 0.2) := by
        rw [hp0]; exact not_lt.mpr (by positivity)
      simp only [centroidStep, if_neg h1, if_neg h2]
    rw [List.foldl_cons, hstep]
    exact ih s (fun q hq => hz q (List.mem_cons_of_mem _ hq)) hm

/-! ### Pixel nonnegativity -/

theorem pixelMean_nonneg (img : ImageData) (hv : ValidData img) (p : ℕ) :
    0 ≤ pixelMean img p := by
  have h1 := hv (p * 4)
  have h2 := hv (p * 4 + 1)
  have h3 := hv (p * 4 + 2)
  unfold pixelMean
  have hsum : (0 : ℚ) ≤ img.data (p * 4) + img.data (p * 4 + 1) + img.data (p * 4 + 2) := by
    linarith
  exact div_nonneg hsum (by norm_num)

theorem meanIntensity_nonneg (img : ImageData) (hv : ValidData img) (x y : ℕ) :
    0 ≤ meanIntensity img x y :=
  pixelMean_nonneg img hv _

/-! ### C1: a single bright pixel is recovered exactly -/

/-- C1.  For a buffer whose only nonzero-luminosity pixel is at
`(x0, y0)` with luminosity `I > 0`, `calculateCentroid` returns exactly
`x = x0` and `y = y0`: the evolving 20%-of-peak-so-far threshold discards
every zero pixel (both before and after the peak is first seen) and admits
the peak itself. -/
theorem calculateCentroid_single_peak (img : ImageData) (x0 y0 : ℕ) (I : ℚ)
    (hx : x0 < img.width) (hy : y0 < img.height) (hI : 0 < I)
    (hmean : ∀ x < img.width, ∀ y < img.height,
      meanIntensity img x y = if x = x0 ∧ y = y0 then I else 0) :
    (calculateCentroid img).x = x0 ∧ (calculateCentroid img).y = y0 := by
  have hp0mem : ((y0, x0) : ℕ × ℕ) ∈ scanOrder img.height img.width :=
    mem_scanOrder.mpr ⟨hy, hx⟩
  obtain ⟨l1, l2, hsplit⟩ := List.append_of_mem hp0mem
  have hnd := scanOrder_nodup img.height img.width
  rw [hsplit, List.nodup_append] at hnd
  obtain ⟨hnd1, hnd2, hdisj⟩ := hnd
  have hp0nl1 : ((y0, x0) : ℕ × ℕ) ∉ l1 := fun hmem => hdisj hmem (List.mem_cons_self ..)
  have hzero : ∀ q : ℕ × ℕ, q ∈ scanOrder img.height img.width → q ≠ (y0, x0) →
      meanIntensity img q.2 q.1 = 0 := by
    intro q hqmem hqne
    have hq := mem_scanOrder.mp hqmem
    rw [hmean q.2 hq.2 q.1 hq.1, if_neg]
    rintro ⟨hh1, hh2⟩
    exact hqne (Prod.ext hh2 hh1)
  have hval : meanIntensity img x0 y0 = I := by
    rw [hmean x0 hx y0 hy, if_pos ⟨rfl, rfl⟩]
  have hpass : centroidPass img = ⟨I, x0 * I, y0 * I, I⟩ := by
    unfold centroidPass
    rw [hsplit, List.foldl_append, List.foldl_cons]
    have hl1 : l1.foldl (centroidStep img) ⟨0, 0, 0, 0⟩ = ⟨0, 0, 0, 0⟩ := by
      apply centroidFold_zeros
      · intro q hq
        exact hzero q (hsplit ▸ List.mem_append_left _ hq) (fun h => hp0nl1 (h ▸ hq))
      · norm_num
    rw [hl1]
    have hstep : centroidStep img ⟨0, 0, 0, 0⟩ ((y0 : ℕ), x0) = ⟨I, x0 * I, y0 * I, I⟩ := by
      simp only [centroidStep, hval]
      split_ifs with h1 h2 h3
      all_goals first
        | (exfalso; nlinarith)
        | norm_num
    rw [hstep]
    apply centroidFold_zeros
    · intro q hq
      refine hzero q ?_ ?_
      · rw [hsplit]
        exact List.mem_append_right _ (List.mem_cons_of_mem _ hq)
      · intro h
        exact (List.nodup_cons.mp hnd2).1 (h ▸ hq)
    · exact hI.le
  unfold calculateCentroid
  rw [hpass]
  have hmass : (I : ℚ) ≠ 0 := hI.ne'
  simp only [if_neg hmass]
  exact ⟨mul_div_cancel_right₀ _ hmass, mul_div_cancel_right₀ _ hmass⟩

/-- Witness for C1: the 2×2 buffer `imgPeak2` with its single bright pixel
at `(1, 0)` yields centroid `(1, 0)` exactly. -/
theorem calculateCentroid_single_peak_witness :
    (calculateCentroid imgPeak2).x = 1 ∧ (calculateCentroid imgPeak2).y = 0 := by
  have h := calculateCentroid_single_peak imgPeak2 1 0 30 (by decide) (by decide)
    (by norm_num)
    (by
      intro x hx y hy
      have hx2 : x < 2 := hx
      have hy2 : y < 2 := hy
      interval_cases x <;> interval_cases y <;>
        norm_num [meanIntensity, pixelMean, imgPeak2])
  simpa using h

/-! ### C10: the centroid always lies inside the buffer -/

theorem centroidStep_inv (img : ImageData) (hv : ValidData img) (p : ℕ × ℕ)
    (hp1 : p.1 < img.height) (hp2 : p.2 < img.width) (s : CentroidState)
    (hs : CentroidInv img s) : CentroidInv img (centroidStep img s p) := by
  obtain ⟨h1, h2, h3, h4, h5, h6⟩ := hs
  have hI0 : 0 ≤ meanIntensity img p.2 p.1 := meanIntensity_nonneg img hv _ _
  have hxle : (p.2 : ℚ) ≤ (img.width : ℚ) - 1 := by
    have : (p.2 : ℚ) + 1 ≤ (img.width : ℚ) := by exact_mod_cast hp2
    linarith
  have hyle : (p.1 : ℚ) ≤ (img.height : ℚ) - 1 := by
    have : (p.1 : ℚ) + 1 ≤ (img.height : ℚ) := by exact_mod_cast hp1
    linarith
  have hx0 : (0 : ℚ) ≤ p.2 := Nat.cast_nonneg _
  have hy0 : (0 : ℚ) ≤ p.1 := Nat.cast_nonneg _
  have hwd : ∀ m : ℚ, 0 ≤ m →
      CentroidInv img
        { totalMass := s.totalMass + meanIntensity img p.2 p.1
          sumX := s.sumX + p.2 * meanIntensity img p.2 p.1
          sumY := s.sumY + p.1 * meanIntensity img p.2 p.1
          maxVal := m } := by
    intro m hm
    unfold CentroidInv
    dsimp only
    refine ⟨by linarith, add_nonneg h2 (mul_nonneg hx0 hI0), ?_,
      add_nonneg h4 (mul_nonneg hy0 hI0), ?_, hm⟩
    · rw [mul_add]
      exact add_le_add h3 (mul_le_mul_of_nonneg_right hxle hI0)
    · rw [mul_add]
      exact add_le_add h5 (mul_le_mul_of_nonneg_right hyle hI0)
  have hskip : ∀ m : ℚ, 0 ≤ m → CentroidInv img { s with maxVal := m } :=
    fun m hm => ⟨h1, h2, h3, h4, h5, hm⟩
  simp only [centroidStep]
  split_ifs with hc1 hc2 hc3
  · exact hwd _ hI0
  · exact hskip _ hI0
  · exact hwd _ h6
  · exact hskip _ h6

theorem centroidFold_inv (img : ImageData) (hv : ValidData img) :
    ∀ (l : List (ℕ × ℕ)) (s : CentroidState),
      (∀ p ∈ l, p.1 < img.height ∧ p.2 < img.width) → CentroidInv img s →
      CentroidInv img (l.foldl (centroidStep img) s) := by
  intro l
  induction l with
  | nil => intro s _ hs; exact hs
  | cons p t ih =>
    intro s hl hs
    have hp := hl p (List.mem_cons_self ..)
    rw [List.foldl_cons]
    exact ih _ (fun q hq => hl q (List.mem_cons_of_mem _ hq))
      (centroidStep_inv img hv p hp.1 hp.2 s hs)

/-- C10.  For a valid buffer with `width ≥ 1` and `height ≥ 1`, the
centroid always satisfies `0 ≤ x < width` and `0 ≤ y < height`: the
degenerate branch returns the geometric centre and the weighted-average
branch is bounded by the extreme pixel indices. -/
theorem calculateCentroid_in_bounds (img : ImageData) (hv : ValidData img)
    (hw : 1 ≤ img.width) (hh : 1 ≤ img.height) :
    0 ≤ (calculateCentroid img).x ∧ (calculateCentroid img).x < img.width ∧
      0 ≤ (calculateCentroid img).y ∧ (calculateCentroid img).y < img.height := by
  have hwq : (1 : ℚ) ≤ (img.width : ℚ) := by exact_mod_cast hw
  have hhq : (1 : ℚ) ≤ (img.height : ℚ) := by exact_mod_cast hh
  have hinv : CentroidInv img (centroidPass img) := by
    apply centroidFold_inv img hv
    · intro p hp
      exact mem_scanOrder.mp hp
    · refine ⟨le_refl 0, le_refl 0, ?_, le_refl 0, ?_, le_refl 0⟩ <;> simp
  obtain ⟨h1, h2, h3, h4, h5, h6⟩ := hinv
  unfold calculateCentroid
  by_cases h0 : (centroidPass img).totalMass = 0
  · rw [if_pos h0]
    refine ⟨by positivity, by simp only []; linarith, by positivity, by simp only []; linarith⟩
  · rw [if_neg h0]
    have hmass : 0 < (centroidPass img).totalMass := lt_of_le_of_ne h1 (Ne.symm h0)
    refine ⟨div_nonneg h2 h1, ?_, div_nonneg h4 h1, ?_⟩
    · have : (centroidPass img).sumX < (img.width : ℚ) * (centroidPass img).totalMass := by
        have hlt : ((img.width : ℚ) - 1) * (centroidPass img).totalMass <
            (img.width : ℚ) * (centroidPass img).totalMass :=
          mul_lt_mul_of_pos_right (by linarith) hmass
        linarith
      exact (div_lt_iff₀ hmass).mpr this
    · have : (centroidPass img).sumY < (img.height : ℚ) * (centroidPass img).totalMass := by
        have hlt : ((img.height : ℚ) - 1) * (centroidPass img).totalMass <
            (img.height : ℚ) * (centroidPass img).totalMass :=
          mul_lt_mul_of_pos_right (by linarith) hmass
        linarith
      exact (div_lt_iff₀ hmass).mpr this

/-- Witness for C10 at the 1×1 all-zero buffer (degenerate centre case). -/
theorem calculateCentroid_in_bounds_witness :
    0 ≤ (calculateCentroid imgZero1).x ∧ (calculateCentroid imgZero1).x < imgZero1.width ∧
      0 ≤ (calculateCentroid imgZero1).y ∧ (calculateCentroid imgZero1).y < imgZero1.height :=
  calculateCentroid_in_bounds imgZero1 (fun _ => le_refl 0) (by decide) (by decide)

/-! ### The statistics pass -/

theorem statFold_zeros (img : ImageData) (hz : ∀ p, pixelMean img p = 0)
    (halfMax maxVal : ℚ) (hhm : 0 ≤ halfMax) (hmv : maxVal ≤ 0) :
    ∀ (l : List ℕ) (s : StatAccum), l.foldl (statStep img halfMax maxVal) s = s := by
  intro l
  induction l with
  | nil => intro s; rfl
  | cons p t ih =>
    intro s
    have e1 : ¬(pixelMean img p > halfMax) := by rw [hz p]; exact not_lt.mpr hhm
    have e2 : ¬(pixelMean img p < maxVal * 0.1) := by
      rw [hz p]; exact not_lt.mpr (by nlinarith)
    have hstep : statStep img halfMax maxVal s p = s := by
      simp only [statStep, if_neg e1, if_neg e2]
    rw [List.foldl_cons, hstep]
    exact ih s

theorem statFold_halfMaxCount (img : ImageData) (halfMax maxVal : ℚ) :
    ∀ (l : List ℕ) (s : StatAccum),
      (l.foldl (statStep img halfMax maxVal) s).halfMaxCount =
        s.halfMaxCount + l.countP (fun p => decide (halfMax < pixelMean img p)) := by
  intro l
  induction l with
  | nil => intro s; simp
  | cons p t ih =>
    intro s
    have hstep : (statStep img halfMax maxVal s p).halfMaxCount =
        s.halfMaxCount + (if halfMax < pixelMean img p then 1 else 0) := by
      simp only [statStep]
      split_ifs <;> rfl
    rw [List.foldl_cons, ih (statStep img halfMax maxVal s p), hstep, List.countP_cons]
    simp only [decide_eq_true_eq]
    omega

theorem statFold_bgSum_nonneg (img : ImageData) (hv : ValidData img) (halfMax maxVal : ℚ) :
    ∀ (l : List ℕ) (s : StatAccum), 0 ≤ s.backgroundSum →
      0 ≤ (l.foldl (statStep img halfMax maxVal) s).backgroundSum := by
  intro l
  induction l with
  | nil => intro s hs; exact hs
  | cons p t ih =>
    intro s hs
    rw [List.foldl_cons]
    apply ih
    have hval := pixelMean_nonneg img hv p
    simp only [statStep]
    split_ifs <;> first
      | (dsimp only; linarith)
      | linarith

theorem countP_range_eq_card (n : ℕ) (q : ℕ → Prop) [DecidablePred q] :
    (List.range n).countP (fun x => decide (q x)) = ((Finset.range n).filter q).card := by
  induction n with
  | zero => simp
  | succ k ih =>
    rw [List.range_succ, List.countP_append, Finset.range_succ, Finset.filter_insert]
    by_cases hq : q k
    · rw [if_pos hq, Finset.card_insert_of_not_mem (by simp)]
      simp [ih, hq]
    · rw [if_neg hq]
      simp [ih, hq]

theorem estBackground_nonneg (img : ImageData) (hv : ValidData img) :
    0 ≤ estBackground img := by
  simp only [estBackground]
  split_ifs with hc
  · refine div_nonneg ?_ (Nat.cast_nonneg _)
    exact statFold_bgSum_nonneg img hv _ _ _ ⟨0, 0, 0⟩ (le_refl 0)
  · exact le_refl 0

theorem toFixed_nonneg (d : ℕ) (x : ℝ) (hx : 0 ≤ x) : 0 ≤ toFixed d x := by
  unfold toFixed
  apply div_nonneg _ (by positivity)
  have h0 : (0 : ℤ) ≤ round (x * 10 ^ d) := by
    rw [round_eq]
    exact Int.le_floor.mpr (by push_cast; positivity)
  exact_mod_cast h0

/-! ### C3: the all-zero buffer takes the degenerate paths -/

/-- C3.  On an all-zero buffer, `calculateCentroid` returns the geometric
centre `(width/2, height/2)` with `maxVal = 0`, and `estimateStats`
returns `fwhmPixels = 0` and `snr = 0` (the noise denominator is
`sqrt(0+1) = 1`, so no division by zero occurs anywhere). -/
theorem allZero_centroid_stats (img : ImageData) (hz : ∀ i, img.data i = 0) :
    calculateCentroid img = ⟨(img.width : ℚ) / 2, (img.height : ℚ) / 2, 0⟩ ∧
      (estimateStats img).fwhmPixels = 0 ∧ (estimateStats img).snr = 0 := by
  have hpm : ∀ p, pixelMean img p = 0 := by
    intro p
    unfold pixelMean
    rw [hz, hz, hz]
    norm_num
  have hmean0 : ∀ x y, meanIntensity img x y = 0 := fun x y => hpm _
  have hpass : centroidPass img = ⟨0, 0, 0, 0⟩ :=
    centroidFold_zeros img _ _ (fun p _ => hmean0 p.2 p.1) (le_refl 0)
  have hcent : calculateCentroid img = ⟨(img.width : ℚ) / 2, (img.height : ℚ) / 2, 0⟩ := by
    simp only [calculateCentroid]
    rw [hpass]
    dsimp only
    rw [if_pos rfl]
  have hmax : (calculateCentroid img).maxVal = 0 := by rw [hcent]
  have hstatp : statPass img ((calculateCentroid img).maxVal / 2)
      (calculateCentroid img).maxVal = ⟨0, 0, 0⟩ := by
    rw [hmax]
    exact statFold_zeros img hpm (0 / 2) 0 (by norm_num) (le_refl 0) _ _
  have hbg : estBackground img = 0 := by
    simp only [estBackground]
    rw [hstatp]
    norm_num
  refine ⟨hcent, ?_, ?_⟩
  · simp only [estimateStats]
    rw [hstatp]
    simp [toFixed]
  · simp only [estimateStats]
    rw [hbg, hmax]
    simp [toFixed]

/-- Witness for C3 at the concrete 1×1 all-zero buffer. -/
theorem allZero_centroid_stats_witness :
    calculateCentroid imgZero1 = ⟨1 / 2, 1 / 2, 0⟩ ∧
      (estimateStats imgZero1).fwhmPixels = 0 ∧ (estimateStats imgZero1).snr = 0 := by
  have h := allZero_centroid_stats imgZero1 (fun _ => rfl)
  simpa [imgZero1] using h

/-! ### C7: the FWHM formula and its nonnegativity -/

/-- C7.  `estimateStats` computes `fwhmPixels` as the two-decimal rounding
of `2 * sqrt(count / π)`, where `count` is the number of pixels whose
channel-mean luminosity strictly exceeds half of the centroid's `maxVal`,
and the result is nonnegative for every buffer. -/
theorem estimateStats_fwhm_formula (img : ImageData) :
    (estimateStats img).fwhmPixels =
      toFixed 2 (2 * Real.sqrt ((halfMaxRegionCount img : ℝ) / Real.pi)) ∧
      0 ≤ (estimateStats img).fwhmPixels := by
  have hcount : (statPass img ((calculateCentroid img).maxVal / 2)
      (calculateCentroid img).maxVal).halfMaxCount = halfMaxRegionCount img := by
    unfold statPass halfMaxRegionCount
    rw [statFold_halfMaxCount]
    simp [countP_range_eq_card]
  constructor
  · simp only [estimateStats]
    rw [hcount]
  · simp only [estimateStats]
    exact toFixed_nonneg 2 _ (by positivity)

/-! ### C8: the noise denominator is at least 1 -/

/-- C8.  For every valid buffer the noise denominator of `estimateStats`
is exactly `sqrt(background + 1)`, which is at least `1` (the background
mean of nonnegative samples is nonnegative), so the SNR division never
divides by zero and yields an ordinary real number. -/
theorem estimateStats_noise_safe (img : ImageData) (hv : ValidData img) :
    estNoise img = Real.sqrt ((estBackground img : ℝ) + 1) ∧
      1 ≤ estNoise img ∧ estNoise img ≠ 0 ∧
      (estimateStats img).snr =
        toFixed 1 ((((calculateCentroid img).maxVal - estBackground img : ℚ) : ℝ) /
          estNoise img) := by
  have hbg : 0 ≤ estBackground img := estBackground_nonneg img hv
  have h1 : 1 ≤ estNoise img := by
    unfold estNoise
    have hc : (0 : ℝ) ≤ (estBackground img : ℝ) := by exact_mod_cast hbg
    have hm : Real.sqrt 1 ≤ Real.sqrt ((estBackground img : ℝ) + 1) :=
      Real.sqrt_le_sqrt (by linarith)
    simpa [Real.sqrt_one] using hm
  have hne : estNoise img ≠ 0 := (lt_of_lt_of_le zero_lt_one h1).ne'
  refine ⟨rfl, h1, hne, ?_⟩
  simp only [estimateStats]

/-- Witness for C8 at the 1×1 all-zero buffer. -/
theorem estimateStats_noise_safe_witness :
    estNoise imgZero1 = Real.sqrt ((estBackground imgZero1 : ℝ) + 1) ∧
      1 ≤ estNoise imgZero1 ∧ estNoise imgZero1 ≠ 0 ∧
      (estimateStats imgZero1).snr =
        toFixed 1 ((((calculateCentroid imgZero1).maxVal - estBackground imgZero1 : ℚ) : ℝ) /
          estNoise imgZero1) :=
  estimateStats_noise_safe imgZero1 (fun _ => le_refl 0)

/-! ### C5: the log stretch is monotone with fixed points only at 0 and 255 -/

theorem logStretch_gt_self (x : ℝ) (hx : 0 < x) (hx255 : x < 255) : x < logStretch x := by
  have h256eq : (1 : ℝ) + 255 = 256 := by norm_num
  have hlog : 0 < Real.log (1 + 255) := by
    rw [h256eq]; exact Real.log_pos (by norm_num)
  have hC : 0 < 255 / Real.log (1 + 255) := by positivity
  set t : ℝ := x / 255 with ht
  have ht0 : 0 < t := by positivity
  have ht1 : t < 1 := (div_lt_one (by norm_num)).mpr hx255
  have h1 : (1 : ℝ) ∈ Set.Ioi (0 : ℝ) := by norm_num
  have h256 : (256 : ℝ) ∈ Set.Ioi (0 : ℝ) := by norm_num
  have hcc := strictConcaveOn_log_Ioi.2 h1 h256 (by norm_num)
    (sub_pos.mpr ht1) ht0 (by ring)
  rw [smul_eq_mul, smul_eq_mul, smul_eq_mul, smul_eq_mul, Real.log_one] at hcc
  have harg : (1 - t) * 1 + t * 256 = 1 + x := by rw [ht]; ring
  rw [harg] at hcc
  have hkey : 255 / Real.log (1 + 255) * ((1 - t) * 0 + t * Real.log 256) = x := by
    rw [h256eq]
    field_simp
    rw [ht]
    ring
  have hmul := mul_lt_mul_of_pos_left hcc hC
  rw [hkey] at hmul
  calc x < 255 / Real.log (1 + 255) * Real.log (1 + x) := hmul
    _ = logStretch x := rfl

theorem logStretch_strictMono (a b : ℝ) (ha : 0 ≤ a) (hab : a < b) :
    logStretch a < logStretch b := by
  have h256eq : (1 : ℝ) + 255 = 256 := by norm_num
  have hlog : 0 < Real.log (1 + 255) := by
    rw [h256eq]; exact Real.log_pos (by norm_num)
  have hC : 0 < 255 / Real.log (1 + 255) := by positivity
  unfold logStretch
  have : Real.log (1 + a) < Real.log (1 + b) :=
    Real.log_lt_log (by linarith) (by linarith)
  exact mul_lt_mul_of_pos_left this hC

theorem logStretch_zero : logStretch 0 = 0 := by
  simp [logStretch]

theorem logStretch_255 : logStretch 255 = 255 := by
  have h256eq : (1 : ℝ) + 255 = 256 := by norm_num
  have hlog : 0 < Real.log (1 + 255) := by
    rw [h256eq]; exact Real.log_pos (by norm_num)
  unfold logStretch
  exact div_mul_cancel₀ 255 hlog.ne'

/-- C5.  The log-stretch channel map is strictly increasing on the channel
range, applying it twice moves every interior value (`stretch(stretch x) ≠
stretch x` for `0 < x < 255`), its only fixed points on `[0, 255]` are `0`
and `255`, and the buffer loop leaves every alpha sample untouched. -/
theorem logStretch_monotone_fixed_points :
    (∀ a b : ℝ, 0 ≤ a → a < b → logStretch a < logStretch b) ∧
      (∀ x : ℝ, 0 < x → x < 255 → logStretch (logStretch x) ≠ logStretch x) ∧
      (∀ x : ℝ, 0 ≤ x → x ≤ 255 → (logStretch x = x ↔ x = 0 ∨ x = 255)) ∧
      (∀ (d : ℕ → ℝ) (i : ℕ), i % 4 = 3 → applyLogStretch d i = d i) := by
  refine ⟨logStretch_strictMono, ?_, ?_, ?_⟩
  · intro x hx hx255
    have h0 : 0 < logStretch x := by
      have := logStretch_strictMono 0 x (le_refl 0) hx
      rw [logStretch_zero] at this
      exact this
    have h255 : logStretch x < 255 := by
      have := logStretch_strictMono x 255 hx.le hx255
      rw [logStretch_255] at this
      exact this
    exact ne_of_gt (logStretch_gt_self (logStretch x) h0 h255)
  · intro x h0 h255
    constructor
    · intro hfix
      by_contra hne
      push_neg at hne
      obtain ⟨hne0, hne255⟩ := hne
      have hx : 0 < x := lt_of_le_of_ne h0 (Ne.symm hne0)
      have hx2 : x < 255 := lt_of_le_of_ne h255 hne255
      have := logStretch_gt_self x hx hx2
      rw [hfix] at this
      exact lt_irrefl x this
    · rintro (rfl | rfl)
      · exact logStretch_zero
      · exact logStretch_255
  · intro d i h
    simp [applyLogStretch, h]

/-- Witness for C5 at concrete channel values. -/
theorem logStretch_monotone_fixed_points_witness :
    logStretch 0 < logStretch 1 ∧ logStretch (logStretch 1) ≠ logStretch 1 ∧
      logStretch 255 = 255 ∧ applyLogStretch (fun _ => 5) 3 = 5 := by
  have h := logStretch_monotone_fixed_points
  exact ⟨h.1 0 1 (le_refl 0) (by norm_num), h.2.1 1 (by norm_num) (by norm_num),
    (h.2.2.1 255 (by norm_num) (le_refl 255)).mpr (Or.inr rfl), h.2.2.2 (fun _ => 5) 3 rfl⟩

/-! ### C9: the projection is 2π-periodic in the azimuth -/

/-- C9.  Rotating the azimuth by exactly `2π` leaves every projected
screen coordinate unchanged (exactly, over the reals), at every grid
point, elevation and zoom. -/
theorem project_azimuth_periodic (angleX angleZ zoom width height x y z : ℝ) :
    project angleX (angleZ + 2 * Real.pi) zoom width height x y z =
      project angleX angleZ zoom width height x y z := by
  simp only [project, Real.cos_add_two_pi, Real.sin_add_two_pi]

/-! ### C6: zoom and elevation stay clamped forever -/

theorem handleEvent_scale_mem (t : ViewerState) (e : ViewerEvent)
    (h : 0.5 ≤ t.scale ∧ t.scale ≤ 3.0) :
    0.5 ≤ (handleEvent t e).scale ∧ (handleEvent t e).scale ≤ 3.0 := by
  cases e with
  | wheel dY =>
    simp only [handleEvent]
    constructor
    · exact le_min (le_max_left _ _) (by norm_num)
    · exact min_le_right _ _
  | dragMove dx dy => exact h

theorem handleEvent_angleX_mem (t : ViewerState) (e : ViewerEvent)
    (h : 0.2 ≤ t.angleX ∧ t.angleX ≤ Real.pi / 2.2) :
    0.2 ≤ (handleEvent t e).angleX ∧ (handleEvent t e).angleX ≤ Real.pi / 2.2 := by
  have hpi : (0.2 : ℝ) ≤ Real.pi / 2.2 := by
    rw [le_div_iff₀ (by norm_num : (0 : ℝ) < 2.2)]
    nlinarith [Real.pi_gt_three]
  cases e with
  | wheel dY => exact h
  | dragMove dx dy =>
    simp only [handleEvent]
    exact ⟨le_max_left _ _, max_le hpi (min_le_left _ _)⟩

/-- C6.  From any state with zoom in `[0.5, 3.0]` and elevation in
`[0.2, π/2.2]`, any finite sequence of wheel and drag-move events keeps
both within their ranges, and any single input that would overshoot a
bound leaves the value pinned exactly at that bound. -/
theorem viewer_clamped (s : ViewerState) (evs : List ViewerEvent)
    (hz : 0.5 ≤ s.scale ∧ s.scale ≤ 3.0)
    (he : 0.2 ≤ s.angleX ∧ s.angleX ≤ Real.pi / 2.2) :
    (0.5 ≤ (runEvents s evs).scale ∧ (runEvents s evs).scale ≤ 3.0 ∧
        0.2 ≤ (runEvents s evs).angleX ∧ (runEvents s evs).angleX ≤ Real.pi / 2.2) ∧
      (∀ (t : ViewerState) (dY : ℝ),
        (3.0 < t.scale + -Real.sign dY * 0.1 →
          (handleEvent t (ViewerEvent.wheel dY)).scale = 3.0) ∧
        (t.scale + -Real.sign dY * 0.1 < 0.5 →
          (handleEvent t (ViewerEvent.wheel dY)).scale = 0.5)) ∧
      (∀ (t : ViewerState) (dx dy : ℝ),
        (Real.pi / 2.2 < t.angleX + dy * 0.01 →
          (handleEvent t (ViewerEvent.dragMove dx dy)).angleX = Real.pi / 2.2) ∧
        (t.angleX + dy * 0.01 < 0.2 →
          (handleEvent t (ViewerEvent.dragMove dx dy)).angleX = 0.2)) := by
  have hpi : (0.2 : ℝ) ≤ Real.pi / 2.2 := by
    rw [le_div_iff₀ (by norm_num : (0 : ℝ) < 2.2)]
    nlinarith [Real.pi_gt_three]
  refine ⟨?_, ?_, ?_⟩
  · have hmain : ∀ (l : List ViewerEvent) (t : ViewerState),
        (0.5 ≤ t.scale ∧ t.scale ≤ 3.0) → (0.2 ≤ t.angleX ∧ t.angleX ≤ Real.pi / 2.2) →
        0.5 ≤ (runEvents t l).scale ∧ (runEvents t l).scale ≤ 3.0 ∧
          0.2 ≤ (runEvents t l).angleX ∧ (runEvents t l).angleX ≤ Real.pi / 2.2 := by
      intro l
      induction l with
      | nil => intro t h1 h2; exact ⟨h1.1, h1.2, h2.1, h2.2⟩
      | cons e rest ih =>
        intro t h1 h2
        exact ih (handleEvent t e) (handleEvent_scale_mem t e h1)
          (handleEvent_angleX_mem t e h2)
    exact hmain evs s hz he
  · intro t dY
    constructor
    · intro hover
      simp only [handleEvent]
      rw [max_eq_right (by linarith), min_eq_right (by linarith)]
    · intro hunder
      simp only [handleEvent]
      rw [max_eq_left (le_of_lt hunder), min_eq_left (by norm_num)]
  · intro t dx dy
    constructor
    · intro hover
      simp only [handleEvent]
      rw [min_eq_left (le_of_lt hover), max_eq_right hpi]
    · intro hunder
      simp only [handleEvent]
      rw [min_eq_right (by linarith), max_eq_left (le_of_lt hunder)]

/-- Witness for C6: a concrete state and event sequence stay clamped. -/
theorem viewer_clamped_witness :
    0.5 ≤ (runEvents ⟨0.8, 0, 1.2⟩
        [ViewerEvent.wheel 1, ViewerEvent.dragMove 3 (-2)]).scale ∧
      (runEvents ⟨0.8, 0, 1.2⟩
        [ViewerEvent.wheel 1, ViewerEvent.dragMove 3 (-2)]).scale ≤ 3.0 ∧
      0.2 ≤ (runEvents ⟨0.8, 0, 1.2⟩
        [ViewerEvent.wheel 1, ViewerEvent.dragMove 3 (-2)]).angleX ∧
      (runEvents ⟨0.8, 0, 1.2⟩
        [ViewerEvent.wheel 1, ViewerEvent.dragMove 3 (-2)]).angleX ≤ Real.pi / 2.2 :=
  (viewer_clamped ⟨0.8, 0, 1.2⟩ [ViewerEvent.wheel 1, ViewerEvent.dragMove 3 (-2)]
    ⟨by norm_num, by norm_num⟩
    ⟨by norm_num, by
      show (0.8 : ℝ) ≤ Real.pi / 2.2
      rw [le_div_iff₀ (by norm_num : (0 : ℝ) < 2.2)]
      nlinarith [Real.pi_gt_three]⟩).1

/-! ### C2: the radial profile entries -/

theorem natFloor_ratCast_sqrt (q : ℚ) (hq : 0 ≤ q) :
    ⌊Real.sqrt ((q : ℚ) : ℝ)⌋₊ = Nat.sqrt ⌊q⌋₊ := by
  have hqr : (0 : ℝ) ≤ (q : ℝ) := by exact_mod_cast hq
  rw [Nat.floor_eq_iff (Real.sqrt_nonneg _)]
  constructor
  · rw [Real.le_sqrt (Nat.cast_nonneg _) hqr]
    have h1 : ((Nat.sqrt ⌊q⌋₊ ^ 2 : ℕ) : ℚ) ≤ (⌊q⌋₊ : ℚ) := by
      exact_mod_cast Nat.sqrt_le' ⌊q⌋₊
    have h2 : ((⌊q⌋₊ : ℕ) : ℚ) ≤ q := Nat.floor_le hq
    have : ((Nat.sqrt ⌊q⌋₊ ^ 2 : ℕ) : ℚ) ≤ q := le_trans h1 h2
    have hr : ((Nat.sqrt ⌊q⌋₊ ^ 2 : ℕ) : ℝ) ≤ (q : ℝ) := by exact_mod_cast this
    push_cast at hr ⊢
    exact hr
  · rw [Real.sqrt_lt' (show (0 : ℝ) < (Nat.sqrt ⌊q⌋₊ : ℝ) + 1 by positivity)]
    have h1 : q < (⌊q⌋₊ : ℚ) + 1 := Nat.lt_floor_add_one q
    have h2 : ⌊q⌋₊ + 1 ≤ (Nat.sqrt ⌊q⌋₊ + 1) ^ 2 := Nat.succ_le_of_lt (Nat.lt_succ_sqrt' ⌊q⌋₊)
    have h2q : ((⌊q⌋₊ : ℚ) + 1) ≤ ((Nat.sqrt ⌊q⌋₊ + 1 : ℕ) ^ 2 : ℚ) := by exact_mod_cast h2
    have : q < ((Nat.sqrt ⌊q⌋₊ + 1 : ℕ) ^ 2 : ℚ) := lt_of_lt_of_le h1 h2q
    have hr : (q : ℝ) < ((Nat.sqrt ⌊q⌋₊ + 1 : ℕ) ^ 2 : ℝ) := by exact_mod_cast this
    push_cast at hr ⊢
    exact hr

theorem radialStep_eq_compute (img : ImageData) (cx cy : ℚ) (R : ℕ) :
    radialStep img cx cy R = radialStepCompute img cx cy R := by
  funext s p
  simp only [radialStep, radialStepCompute]
  have hd2 : (0 : ℚ) ≤ (p.2 - cx) * (p.2 - cx) + (p.1 - cy) * (p.1 - cy) :=
    add_nonneg (mul_self_nonneg _) (mul_self_nonneg _)
  have hcond : (Real.sqrt (((p.2 - cx) * (p.2 - cx) + (p.1 - cy) * (p.1 - cy) : ℚ) : ℝ) <
      (R : ℝ)) ↔ (p.2 - cx) * (p.2 - cx) + (p.1 - cy) * (p.1 - cy) < (R : ℚ) ^ 2 := by
    rcases Nat.eq_zero_or_pos R with rfl | hR
    · simp only [Nat.cast_zero]
      constructor
      · intro h
        exact absurd h (not_lt.mpr (Real.sqrt_nonneg _))
      · intro h
        refine absurd h (not_lt.mpr ?_)
        have h00 : ((0 : ℚ)) ^ 2 = 0 := by norm_num
        rw [h00]
        exact add_nonneg (mul_self_nonneg _) (mul_self_nonneg _)
    · have hRr : (0 : ℝ) < (R : ℝ) := by exact_mod_cast hR
      rw [Real.sqrt_lt' hRr]
      constructor <;> intro h <;> exact_mod_cast h
  by_cases hc : (p.2 - cx) * (p.2 - cx) + (p.1 - cy) * (p.1 - cy) < (R : ℚ) ^ 2
  · rw [if_pos (hcond.mpr hc), if_pos hc, natFloor_ratCast_sqrt _ hd2]
  · rw [if_neg (fun h => hc (hcond.mp h)), if_neg hc]

theorem radialPass_eq_compute (img : ImageData) (cx cy : ℚ) (R : ℕ) :
    radialPass img cx cy R = radialPassCompute img cx cy R := by
  unfold radialPass radialPassCompute
  rw [radialStep_eq_compute]

theorem radialFold_bins_nonneg (img : ImageData) (hv : ValidData img) (cx cy : ℚ) (R : ℕ) :
    ∀ (l : List (ℕ × ℕ)) (s : RadialState),
      (∀ j, 0 ≤ s.bins j) → ∀ j, 0 ≤ (l.foldl (radialStep img cx cy R) s).bins j := by
  intro l
  induction l with
  | nil => intro s hs; exact hs
  | cons p t ih =>
    intro s hs
    rw [List.foldl_cons]
    apply ih
    intro j
    simp only [radialStep]
    split_ifs with h1
    · dsimp only
      split_ifs with h2
      · exact add_nonneg (hs j) (meanIntensity_nonneg img hv _ _)
      · exact hs j
    · exact hs j

/-- C2 (amended).  For every buffer, centre and `maxRadius`, the radial
profile has exactly `maxRadius` entries whose `radius` fields are
`0, 1, ..., maxRadius - 1` in order — unconditionally.  Additionally, for
a valid (nonnegative-sample) buffer whose centre bin is either empty or of
positive summed intensity (so that the peak normaliser is nonzero), every
entry's intensity is a nonnegative finite number and a bin with zero
contributing pixels reports intensity exactly 0.  Without that proviso
the peak normaliser is `0` and the centre entry is `0/0 = NaN` (see the
counterexample). -/
theorem calculateRadialProfile_entries (img : ImageData) (cx cy : ℚ) (R : ℕ) :
    (calculateRadialProfile img cx cy R).length = R ∧
      (∀ i (h : i < (calculateRadialProfile img cx cy R).length),
        ((calculateRadialProfile img cx cy R).get ⟨i, h⟩).radius = i) ∧
      (ValidData img →
        ((radialPass img cx cy R).counts 0 = 0 ∨ 0 < (radialPass img cx cy R).bins 0) →
        ∀ i (h : i < (calculateRadialProfile img cx cy R).length),
          JsNum.Nonneg ((calculateRadialProfile img cx cy R).get ⟨i, h⟩).intensity ∧
            ((radialPass img cx cy R).counts i = 0 →
              ((calculateRadialProfile img cx cy R).get ⟨i, h⟩).intensity = JsNum.num 0)) := by
  have hlen : (calculateRadialProfile img cx cy R).length = R := by
    simp [calculateRadialProfile]
  have hget : ∀ i (h : i < (calculateRadialProfile img cx cy R).length),
      (calculateRadialProfile img cx cy R).get ⟨i, h⟩ =
        { radius := i
          intensity := jsDiv (radialAvg (radialPass img cx cy R) i)
            (radialPeak (radialPass img cx cy R))
          idealDiffraction := Real.exp (-(0.1) * i * i) } := by
    intro i h
    simp only [calculateRadialProfile, List.get_eq_getElem, List.getElem_map,
      List.getElem_range]
  refine ⟨hlen, ?_, ?_⟩
  · intro i h
    rw [hget i h]
  intro hv hpeak
  have hbins : ∀ j, 0 ≤ (radialPass img cx cy R).bins j :=
    radialFold_bins_nonneg img hv cx cy R _ _ (fun _ => le_refl 0)
  have hpk : 0 < radialPeak (radialPass img cx cy R) := by
    unfold radialPeak
    split_ifs with hc
    · rcases hpeak with h0 | hb
      · exact absurd h0 (Nat.pos_iff_ne_zero.mp hc)
      · exact div_pos hb (by exact_mod_cast hc)
    · norm_num
  have hpkne : radialPeak (radialPass img cx cy R) ≠ 0 := hpk.ne'
  intro i h
  rw [hget i h]
  refine ⟨?_, ?_⟩
  · show JsNum.Nonneg (jsDiv (radialAvg (radialPass img cx cy R) i)
      (radialPeak (radialPass img cx cy R)))
    unfold jsDiv
    rw [if_neg hpkne]
    show 0 ≤ radialAvg (radialPass img cx cy R) i / radialPeak (radialPass img cx cy R)
    apply div_nonneg _ hpk.le
    unfold radialAvg
    split_ifs with hci
    · exact div_nonneg (hbins i) (Nat.cast_nonneg _)
    · exact le_refl 0
  · intro hzero
    have havg : radialAvg (radialPass img cx cy R) i = 0 := by
      unfold radialAvg
      rw [hzero]
      norm_num
    show jsDiv (radialAvg (radialPass img cx cy R) i)
      (radialPeak (radialPass img cx cy R)) = JsNum.num 0
    unfold jsDiv
    rw [if_neg hpkne, havg, zero_div]

/-- Witness for the amended C2 at a concrete 1×1 bright buffer: one entry,
and (with the valid-data and nonzero-peak hypotheses discharged there) a
nonnegative centre intensity. -/
theorem calculateRadialProfile_entries_witness :
    (calculateRadialProfile imgBright1 0 0 1).length = 1 ∧
      JsNum.Nonneg ((calculateRadialProfile imgBright1 0 0 1).get
        ⟨0, by simp [calculateRadialProfile]⟩).intensity := by
  have h := calculateRadialProfile_entries imgBright1 0 0 1
  refine ⟨h.1, ?_⟩
  exact (h.2.2
    (by
      intro i
      dsimp only [imgBright1]
      split_ifs <;> norm_num)
    (Or.inr (by
      rw [radialPass_eq_compute]
      norm_num [radialPassCompute, radialStepCompute, meanIntensity,
        pixelMean, imgBright1, show scanOrder 1 1 = [((0 : ℕ), (0 : ℕ))] from rfl,
        Nat.sqrt_zero]))
    0 (by simp [calculateRadialProfile])).1

/-- Counterexample to C2 as stated: on the 1×1 all-zero buffer with centre
`(0, 0)` and `maxRadius = 1`, the centre bin is nonempty with zero summed
intensity, so the normalising division is `0/0 = NaN` and the single
entry's intensity is not `≥ 0`. -/
theorem calculateRadialProfile_nan_counterexample :
    ¬ (∀ i (h : i < (calculateRadialProfile imgZero1 0 0 1).length),
        JsNum.Nonneg ((calculateRadialProfile imgZero1 0 0 1).get ⟨i, h⟩).intensity) := by
  intro hall
  have h0 : 0 < (calculateRadialProfile imgZero1 0 0 1).length := by
    simp [calculateRadialProfile]
  have hget : ((calculateRadialProfile imgZero1 0 0 1).get ⟨0, h0⟩).intensity =
      jsDiv (radialAvg (radialPass imgZero1 0 0 1) 0)
        (radialPeak (radialPass imgZero1 0 0 1)) := by
    simp only [calculateRadialProfile, List.get_eq_getElem, List.getElem_map,
      List.getElem_range]
  have hcounts : (radialPassCompute imgZero1 0 0 1).counts 0 = 1 := by
    norm_num [radialPassCompute, radialStepCompute, meanIntensity,
      pixelMean, imgZero1, show scanOrder 1 1 = [((0 : ℕ), (0 : ℕ))] from rfl,
      Nat.sqrt_zero]
  have hbins : (radialPassCompute imgZero1 0 0 1).bins 0 = 0 := by
    norm_num [radialPassCompute, radialStepCompute, meanIntensity,
      pixelMean, imgZero1, show scanOrder 1 1 = [((0 : ℕ), (0 : ℕ))] from rfl,
      Nat.sqrt_zero]
  have havg : radialAvg (radialPass imgZero1 0 0 1) 0 = 0 := by
    rw [radialPass_eq_compute]
    unfold radialAvg
    rw [hcounts, hbins]
    norm_num
  have hpeak : radialPeak (radialPass imgZero1 0 0 1) = 0 := by
    rw [radialPass_eq_compute]
    unfold radialPeak
    rw [hcounts, hbins]
    norm_num
  have := hall 0 h0
  rw [hget, havg, hpeak] at this
  have hnan : jsDiv 0 0 = JsNum.nan := by norm_num [jsDiv]
  rw [hnan] at this
  exact this

/-! ### C4: the saturation decision boundary -/

theorem foldl_add_eq_sum (f : ℤ → ℕ) :
    ∀ (l : List ℤ) (acc : ℕ), l.foldl (fun a x => a + f x) acc = acc + (l.map f).sum := by
  intro l
  induction l with
  | nil => intro acc; simp
  | cons x t ih =>
    intro acc
    rw [List.foldl_cons, ih, List.map_cons, List.sum_cons]
    omega

theorem map_range_sum_eq (g : ℕ → ℕ) :
    ∀ k : ℕ, ((List.range k).map g).sum = ∑ n ∈ Finset.range k, g n := by
  intro k
  induction k with
  | zero => simp
  | succ m ih =>
    rw [List.range_succ, List.map_append, List.sum_append, Finset.sum_range_succ, ih]
    simp

theorem intRange_map_sum (a b : ℤ) (f : ℤ → ℕ) :
    ((intRange a b).map f).sum = ∑ v ∈ Finset.Icc a b, f v := by
  unfold intRange
  rw [List.map_map, map_range_sum_eq, Int.Icc_eq_finset_map, Finset.sum_map]
  apply Finset.sum_congr rfl
  intro n _
  simp [Function.Embedding.trans_apply, Nat.castEmbedding_apply, addLeftEmbedding_apply]

theorem finset_card_filter_product (s t : Finset ℤ) (P : ℤ × ℤ → Prop) [DecidablePred P] :
    ((s ×ˢ t).filter P).card = ∑ y ∈ s, ∑ x ∈ t, if P (y, x) then 1 else 0 := by
  rw [Finset.card_eq_sum_ones, Finset.sum_filter, Finset.sum_product]

/-- The counting loops of `checkSaturation` count exactly the pixels of
the clipped scan square with a clipped channel. -/
theorem saturationPass_eq_regionCount (img : ImageData) (cx cy r : ℚ) :
    saturationPass img cx cy r = saturatedRegionCount img cx cy r := by
  unfold saturationPass saturatedRegionCount
  have hinner : ∀ (y : ℤ) (acc : ℕ),
      (intRange ⌊cx - r⌋ ⌈cx + r⌉).foldl
        (fun acc2 x =>
          if inBounds img x y then
            if saturatedAt img x y then acc2 + 1 else acc2
          else acc2) acc =
        acc + ∑ x ∈ Finset.Icc ⌊cx - r⌋ ⌈cx + r⌉,
          if inBounds img x y ∧ saturatedAt img x y then 1 else 0 := by
    intro y acc
    have hb : (fun (acc2 : ℕ) (x : ℤ) =>
        if inBounds img x y then
          if saturatedAt img x y then acc2 + 1 else acc2
        else acc2) =
        (fun acc2 x => acc2 + if inBounds img x y ∧ saturatedAt img x y then 1 else 0) := by
      funext acc2 x
      by_cases h1 : inBounds img x y <;> by_cases h2 : saturatedAt img x y <;>
        simp [h1, h2]
    rw [hb, foldl_add_eq_sum, intRange_map_sum]
  have hofun : (fun (acc : ℕ) (y : ℤ) =>
      (intRange ⌊cx - r⌋ ⌈cx + r⌉).foldl
        (fun acc2 x =>
          if inBounds img x y then
            if saturatedAt img x y then acc2 + 1 else acc2
          else acc2) acc) =
      (fun acc y => acc + ∑ x ∈ Finset.Icc ⌊cx - r⌋ ⌈cx + r⌉,
        if inBounds img x y ∧ saturatedAt img x y then 1 else 0) := by
    funext acc y
    exact hinner y acc
  rw [hofun, foldl_add_eq_sum, intRange_map_sum, finset_card_filter_product, zero_add]

/-- C4.  `checkSaturation` returns `false` when the scanned centre region
contains exactly 4 pixels with a channel at or above 250, and `true` when
it contains 5 or more: the decision boundary is strictly more than 4. -/
theorem checkSaturation_boundary (img : ImageData) (cx cy r : ℚ) :
    (saturatedRegionCount img cx cy r = 4 → checkSaturation img cx cy r = false) ∧
      (5 ≤ saturatedRegionCount img cx cy r → checkSaturation img cx cy r = true) := by
  constructor
  · intro h4
    unfold checkSaturation
    rw [saturationPass_eq_regionCount, h4]
    rfl
  · intro h5
    unfold checkSaturation
    rw [saturationPass_eq_regionCount]
    simp only [decide_eq_true_eq]
    omega

/-- Witness for C4: a 3×3 region with exactly 4 saturated pixels is not
flagged, and one with 5 is. -/
theorem checkSaturation_boundary_witness :
    checkSaturation imgSat4 1 1 1 = false ∧ checkSaturation imgSat5 1 1 1 = true := by
  have hf : (⌊(1 : ℚ) - 1⌋ : ℤ) = 0 := by norm_num
  have hc : (⌈(1 : ℚ) + 1⌉ : ℤ) = 2 := by norm_num
  constructor
  · refine (checkSaturation_boundary imgSat4 1 1 1).1 ?_
    unfold saturatedRegionCount
    rw [hf, hc]
    decide
  · refine (checkSaturation_boundary imgSat5 1 1 1).2 ?_
    unfold saturatedRegionCount
    rw [hf, hc]
    decide
